import Mathlib

/-!
Verification of the `TTSMetrics` evaluation pipeline (scr/metrics/metrics.py).

The numeric metric functions are shallowly embedded over `List ℚ`: a decoded
mono waveform (the result of `librosa.load`) is a list of rationals, a
spectrogram or MFCC matrix is a list of rows (`List (List ℚ)`).  Third-party
signal-processing primitives (`librosa.feature.mfcc`, `librosa.stft`,
`librosa.feature.melspectrogram`, `librosa.yin`, the resemblyzer encoder) are
not part of this repository; they enter the embedding as function parameters,
so every theorem quantifies over their behaviour.  Irrational primitives
(square root, logarithms) are likewise parameters `ℚ → ℚ`.

IEEE-754 special values matter in a few places (numpy division by a zero
norm, `np.mean` of an empty slice): the result type `FloatVal` distinguishes
finite values from the two infinities and NaN, and `fdiv` mirrors IEEE float
division of finite operands.
-/

namespace TTS

/-- A Python/numpy float result: finite, `inf`, `-inf`, or `nan`. -/
inductive FloatVal where
  | fin (q : ℚ)
  | posInf
  | negInf
  | nan
deriving DecidableEq

/-- `true` exactly on finite values. -/
def FloatVal.isFinite : FloatVal → Bool
  | .fin _ => true
  | _ => false

/-- IEEE-style division of two finite floats: a zero denominator produces
`nan` (for `0/0`) or a signed infinity, never a finite value. -/
def fdiv (a b : ℚ) : FloatVal :=
  if b = 0 then
    if a = 0 then .nan else if 0 < a then .posInf else .negInf
  else .fin (a / b)

/-- Arithmetic mean of a rational list (used only on provably nonempty
lists; `List.sum / length`). -/
def meanQ (l : List ℚ) : ℚ := l.sum / (l.length : ℚ)

/-- `np.mean`: the mean of an empty slice is NaN, otherwise finite. -/
def npMean (l : List ℚ) : FloatVal :=
  if l = [] then .nan else .fin (meanQ l)

/-- `np.min` of a nonempty list (0 on the empty list, never used there). -/
def listMin : List ℚ → ℚ
  | [] => 0
  | a :: t => t.foldl min a

/-- `np.max` of a nonempty list (0 on the empty list, never used there). -/
def listMax : List ℚ → ℚ
  | [] => 0
  | a :: t => t.foldl max a

/-- Number of frames of a feature matrix: `shape[1]`, the length of its
first row (numpy matrices are rectangular). -/
def numFrames (m : List (List ℚ)) : ℕ := ((m.head?).map List.length).getD 0

/-- `m[:, :n]`: truncate every row to the first `n` frames. -/
def truncFrames (n : ℕ) (m : List (List ℚ)) : List (List ℚ) :=
  m.map (List.take n)

/-- Elementwise matrix difference (numpy `A - B` on equal-shaped arrays). -/
def matSub (a b : List (List ℚ)) : List (List ℚ) :=
  List.zipWith (fun r1 r2 => List.zipWith (fun x y => x - y) r1 r2) a b

/-- Elementwise matrix square (numpy `A ** 2`). -/
def matSq (a : List (List ℚ)) : List (List ℚ) :=
  a.map (fun r => r.map (fun x => x ^ 2))

/-- `np.sum(A, axis=0)` for a matrix whose rows have length `ncols`:
the list of column sums. -/
def sumAxis0 (a : List (List ℚ)) (ncols : ℕ) : List ℚ :=
  (List.range ncols).map (fun j => (a.map (fun r => ((r.get? j).getD 0))).sum)

/-- Squared Frobenius norm: sum of squares of all entries. -/
def frobNormSq (m : List (List ℚ)) : ℚ :=
  (m.map (fun r => (r.map (fun x => x ^ 2)).sum)).sum

/-- `TTSMetrics.signal_to_noise_ratio` (metrics.py:225-257).  Both decoded
waveforms are truncated to the common length; the synthetic signal is the
"signal", the sample-wise difference the "noise".  When the truncation is
empty, `np.mean` of the empty slices is NaN, the `noise_power == 0` guard is
False on NaN, and `10 * np.log10(nan/nan)` is NaN. -/
def signal_to_noise_ratio (log10 : ℚ → ℚ) (original synthetic : List ℚ) :
    FloatVal :=
  let minLen := min original.length synthetic.length
  let o := original.take minLen
  let s := synthetic.take minLen
  if minLen = 0 then .nan
  else
    let signalPower := meanQ (s.map (fun x => x ^ 2))
    let noisePower := meanQ ((o.zip s).map (fun p => (p.1 - p.2) ^ 2))
    if noisePower = 0 then .posInf
    else .fin (10 * log10 (signalPower / noisePower))

/-- Result record of `TTSMetrics.duration_analysis`. -/
structure DurationResult where
  original_duration : ℚ
  synthetic_duration : ℚ
  duration_difference : ℚ
  duration_ratio : ℚ
deriving DecidableEq

/-- `TTSMetrics.duration_analysis` (metrics.py:305-335).  Durations are
sample count over sample rate; the ratio falls back to 0 when the original
duration is not positive. -/
def duration_analysis (sr : ℕ) (original synthetic : List ℚ) :
    DurationResult :=
  let durOrig : ℚ := (original.length : ℚ) / (sr : ℚ)
  let durSynth : ℚ := (synthetic.length : ℚ) / (sr : ℚ)
  { original_duration := durOrig
    synthetic_duration := durSynth
    duration_difference := |durOrig - durSynth|
    duration_ratio := if 0 < durOrig then durSynth / durOrig else 0 }

/-- `TTSMetrics.mel_cepstral_distortion` (metrics.py:89-127).  The two decoded
waveforms are truncated to a common sample count, MFCC matrices are extracted
(`mfcc` is the `librosa.feature.mfcc` parameter; rows are coefficients,
columns frames), both matrices are truncated to the common frame count, the
zeroth (energy) coefficient row is dropped, and the mean over frames of
`(10/ln 10) * sqrt(2 * sum_of_squared_diffs)` is returned. -/
def mel_cepstral_distortion (ln sqrt : ℚ → ℚ) (mfcc : List ℚ → List (List ℚ))
    (original synthetic : List ℚ) : FloatVal :=
  let minLen := min original.length synthetic.length
  let o := original.take minLen
  let s := synthetic.take minLen
  let mfccOrig := mfcc o
  let mfccSynth := mfcc s
  let minFrames := min (numFrames mfccOrig) (numFrames mfccSynth)
  let a := truncFrames minFrames mfccOrig
  let b := truncFrames minFrames mfccSynth
  let diff := matSub (a.drop 1) (b.drop 1)
  let mcd := (sumAxis0 (matSq diff) minFrames).map
    (fun t => (10 / ln 10) * sqrt (2 * t))
  npMean mcd

/-- The MCD formula as the specification words it: truncate the two
cepstral matrices to the smaller frame count, discard the zeroth
coefficient row, take the per-frame distance
`(10/ln 10) * sqrt(2 * sum over coefficients of diff^2)`, and average
across the aligned frames. -/
def mcdSpec (ln sqrt : ℚ → ℚ) (A B : List (List ℚ)) : FloatVal :=
  let n := min (numFrames A) (numFrames B)
  let X := (truncFrames n A).drop 1
  let Y := (truncFrames n B).drop 1
  npMean ((List.range n).map (fun j =>
    (10 / ln 10) * sqrt (2 *
      ((X.zip Y).map
        (fun rr => (((rr.1.get? j).getD 0) - ((rr.2.get? j).getD 0)) ^ 2)).sum)))

/-- `TTSMetrics.spectral_convergence` (metrics.py:129-159).  Magnitude
spectrograms (`stft` is the composite `np.abs(librosa.stft(.))`) of the
truncated waveforms; the ratio of the Frobenius norm of the difference to
the Frobenius norm of the reference spectrogram, with numpy float division
(no zero guard in the source). -/
def spectral_convergence (sqrt : ℚ → ℚ) (stft : List ℚ → List (List ℚ))
    (original synthetic : List ℚ) : FloatVal :=
  let minLen := min original.length synthetic.length
  let o := original.take minLen
  let s := synthetic.take minLen
  let stftOrig := stft o
  let stftSynth := stft s
  let numerator := sqrt (frobNormSq (matSub stftOrig stftSynth))
  let denominator := sqrt (frobNormSq stftOrig)
  fdiv numerator denominator

/-- Result record of `TTSMetrics.pitch_metrics`. -/
structure PitchStats where
  mean_pitch : ℚ
  std_pitch : ℚ
  min_pitch : ℚ
  max_pitch : ℚ
  pitch_range : ℚ
deriving DecidableEq

/-- The F0 contour returned by `librosa.yin`: one entry per frame, `none`
modelling a NaN frame. -/
def validF0 (f0 : List (Option ℚ)) : List ℚ :=
  (f0.filterMap id).filter (fun q => 0 < q)

/-- Statistics of a (nonempty) list of voiced F0 values: mean, population
standard deviation (`np.std`), min, max and range. -/
def pitchStatsOf (sqrt : ℚ → ℚ) (valid : List ℚ) : PitchStats :=
  { mean_pitch := meanQ valid
    std_pitch := sqrt (meanQ (valid.map (fun x => (x - meanQ valid) ^ 2)))
    min_pitch := listMin valid
    max_pitch := listMax valid
    pitch_range := listMax valid - listMin valid }

/-- `TTSMetrics.pitch_metrics` (metrics.py:161-197).  `yin` is the
`librosa.yin` parameter (C2..C7 note range, fixed in the source).  Frames
that are NaN or not strictly positive are filtered out; if nothing remains
the all-zero statistics record is returned, otherwise the statistics of the
valid frames. -/
def pitch_metrics (sqrt : ℚ → ℚ) (yin : List ℚ → List (Option ℚ))
    (audio : List ℚ) : PitchStats :=
  let f0 := yin audio
  let valid := validF0 f0
  if valid = [] then ⟨0, 0, 0, 0, 0⟩
  else pitchStatsOf sqrt valid

/-- `sklearn.metrics.mean_squared_error` on two equal-length flattened
arrays, paired up by `zip`. -/
def mseZip (xs ys : List ℚ) : FloatVal :=
  npMean ((xs.zip ys).map (fun p => (p.1 - p.2) ^ 2))

/-- `np.corrcoef(x, y)[0, 1]` on two equal-length arrays given as a list of
pairs: covariance over the product of standard deviations (the `n/(n-1)`
normalisations cancel), numpy float division. -/
def pearsonZip (sqrt : ℚ → ℚ) (ps : List (ℚ × ℚ)) : FloatVal :=
  let xs := ps.map Prod.fst
  let ys := ps.map Prod.snd
  let mx := meanQ xs
  let my := meanQ ys
  let cov := meanQ (ps.map (fun p => (p.1 - mx) * (p.2 - my)))
  fdiv cov (sqrt (meanQ (xs.map (fun x => (x - mx) ^ 2))) *
            sqrt (meanQ (ys.map (fun y => (y - my) ^ 2))))

/-- `TTSMetrics.spectral_similarity` (metrics.py:259-303).  `mel` is
`librosa.feature.melspectrogram`, `p2db` is
`librosa.power_to_db(., ref=np.max)` (each spectrogram referenced to its own
peak).  Waveforms are truncated to a common sample count, the log-mel
matrices to a common frame count, then flattened and compared by MSE and
Pearson correlation. -/
def spectral_similarity (sqrt : ℚ → ℚ) (mel : List ℚ → List (List ℚ))
    (p2db : List (List ℚ) → List (List ℚ)) (original synthetic : List ℚ) :
    FloatVal × FloatVal :=
  let minLen := min original.length synthetic.length
  let o := original.take minLen
  let s := synthetic.take minLen
  let logMelOrig := p2db (mel o)
  let logMelSynth := p2db (mel s)
  let minFrames := min (numFrames logMelOrig) (numFrames logMelSynth)
  let fo := (truncFrames minFrames logMelOrig).flatten
  let fs := (truncFrames minFrames logMelSynth).flatten
  (mseZip fo fs, pearsonZip sqrt (fo.zip fs))

/-- The state of a `TTSMetrics` instance: the configured sample rate and the
lazily loaded resemblyzer encoder field (`self.encoder`, `None` until first
use).  `E` is the abstract type of `VoiceEncoder` handles. -/
structure TTSState (E : Type) where
  sr : ℕ
  encoder : Option E
deriving DecidableEq

/-- `TTSMetrics.__init__` (metrics.py:28-36): stores the sample rate and
leaves the encoder unloaded. -/
def TTSState.init (E : Type) (sr : ℕ) : TTSState E := ⟨sr, none⟩

/-- `TTSMetrics._get_encoder` (metrics.py:51-58): return the cached encoder
if present, otherwise construct one (`mk` models `VoiceEncoder()`), store it
in the instance field and return it. -/
def get_encoder {E : Type} (mk : E) (s : TTSState E) : E × TTSState E :=
  match s.encoder with
  | some e => (e, s)
  | none => (mk, { s with encoder := some mk })

/-- The resemblyzer surface used by `speaker_similarity`: encoder
construction, `preprocess_wav` (applied to a file path) and
`embed_utterance`.  `E` is the encoder handle type, `W` the preprocessed
waveform type. -/
structure VoiceLib (E W : Type) where
  mkEncoder : E
  preprocess : String → W
  embed : E → W → List ℚ

/-- Inner product of two equal-length embedding vectors. -/
def dotp (u v : List ℚ) : ℚ := ((u.zip v).map (fun p => p.1 * p.2)).sum

/-- `scipy.spatial.distance.cosine`: one minus the cosine of the angle,
`1 - u.v / (sqrt(u.u) * sqrt(v.v))`. -/
def cosineDist (sqrt : ℚ → ℚ) (u v : List ℚ) : ℚ :=
  1 - dotp u v / (sqrt (dotp u u) * sqrt (dotp v v))

/-- `TTSMetrics.speaker_similarity` (metrics.py:60-87).  The lazily cached
encoder is obtained first; each recording is preprocessed by
`preprocess_wav` applied to its file path (the evaluator's own
`_load_audio` decode is not used here), embedded, and the result is one
minus the cosine distance of the two embeddings.  The updated instance
state is threaded through. -/
def speaker_similarity {E W : Type} (lib : VoiceLib E W) (sqrt : ℚ → ℚ)
    (st : TTSState E) (originalPath syntheticPath : String) :
    ℚ × TTSState E :=
  let es := get_encoder lib.mkEncoder st
  let originalWav := lib.preprocess originalPath
  let syntheticWav := lib.preprocess syntheticPath
  let originalEmbed := lib.embed es.1 originalWav
  let syntheticEmbed := lib.embed es.1 syntheticWav
  (1 - cosineDist sqrt originalEmbed syntheticEmbed, es.2)

/-- Result record of `TTSMetrics.energy_metrics` (metrics.py:199-223). -/
structure EnergyStats where
  mean_energy : ℚ
  std_energy : ℚ
  max_energy : ℚ
  mean_zcr : ℚ
  std_zcr : ℚ
deriving DecidableEq

/-- A value stored in the Python result dict built by
`comprehensive_evaluation`: `None`, a path string, a float, or one of the
nested statistics dicts. -/
inductive JVal where
  | null
  | str (s : String)
  | num (v : FloatVal)
  | pitchD (p : PitchStats)
  | energyD (e : EnergyStats)
deriving DecidableEq

/-- The outcome of each individually try/except-wrapped metric call inside
`comprehensive_evaluation`: `none` models the call raising an exception
(caught by the corresponding `except` block), `some` a normal return.
Exceptions originate in the third-party decode/DSP layers, so the outcomes
are abstract inputs of the model.  The pitch and energy blocks each make two
calls under one `try`, hence two outcome fields each. -/
structure MetricOutcomes where
  sim : Option FloatVal
  mcd : Option FloatVal
  specConv : Option FloatVal
  snr : Option FloatVal
  specSim : Option (FloatVal × FloatVal)
  duration : Option DurationResult
  pitchOrig : Option PitchStats
  pitchSynth : Option PitchStats
  energyOrig : Option EnergyStats
  energySynth : Option EnergyStats
deriving DecidableEq

/-- On success the metric value, on a caught exception `None`
(`results[key] = None` in the `except` branch). -/
def optNum : Option FloatVal → JVal
  | some v => .num v
  | none => .null

/-- `mel_mse` entry: the first component of `spectral_similarity` on
success, `None` on a caught exception. -/
def melMseVal : Option (FloatVal × FloatVal) → JVal
  | some p => .num p.1
  | none => .null

/-- `mel_correlation` entry: second component on success, `None` on a
caught exception. -/
def melCorrVal : Option (FloatVal × FloatVal) → JVal
  | some p => .num p.2
  | none => .null

/-- Keys added by the duration block: `results.update(duration)` on
success; the `except` branch only prints, so nothing is added on failure. -/
def durationSeg : Option DurationResult → List (String × JVal)
  | some d => [("original_duration", .num (.fin d.original_duration)),
               ("synthetic_duration", .num (.fin d.synthetic_duration)),
               ("duration_difference", .num (.fin d.duration_difference)),
               ("duration_ratio", .num (.fin d.duration_ratio))]
  | none => []

/-- Keys added by the pitch block: both `pitch_metrics` calls must succeed;
the `except` branch only prints, so nothing is added on failure. -/
def pitchSeg : Option PitchStats → Option PitchStats → List (String × JVal)
  | some a, some b =>
      [("original_pitch", .pitchD a), ("synthetic_pitch", .pitchD b),
       ("pitch_difference", .num (.fin |a.mean_pitch - b.mean_pitch|))]
  | _, _ => []

/-- Keys added by the energy block: both `energy_metrics` calls must
succeed; the `except` branch only prints, so nothing is added on failure. -/
def energySeg : Option EnergyStats → Option EnergyStats →
    List (String × JVal)
  | some a, some b =>
      [("original_energy", .energyD a), ("synthetic_energy", .energyD b)]
  | _, _ => []

/-- `TTSMetrics.comprehensive_evaluation` (metrics.py:337-494), modelled as
the insertion-ordered key/value list of the Python `results` dict it
returns.  Every metric call sits in its own `try`, so the function is total
in the outcomes; the `verbose` printing has no effect on the record. -/
def comprehensive_evaluation (originalPath syntheticPath : String)
    (m : MetricOutcomes) : List (String × JVal) :=
  [("original_audio", JVal.str originalPath),
   ("synthetic_audio", JVal.str syntheticPath)]
  ++ [("speaker_similarity", optNum m.sim)]
  ++ [("mcd", optNum m.mcd)]
  ++ [("spectral_convergence", optNum m.specConv)]
  ++ [("snr", optNum m.snr)]
  ++ [("mel_mse", melMseVal m.specSim),
      ("mel_correlation", melCorrVal m.specSim)]
  ++ durationSeg m.duration
  ++ pitchSeg m.pitchOrig m.pitchSynth
  ++ energySeg m.energyOrig m.energySynth

/-- Lookup of a key in the ordered dict model (Python dict access). -/
def getKey (k : String) : List (String × JVal) → Option JVal
  | [] => none
  | (k2, v) :: t => if k2 = k then some v else getKey k t

/-! ### Helper lemmas -/

/-- A sum of nonnegative rationals vanishes exactly when every term does. -/
lemma sum_nonneg_eq_zero_iff {l : List ℚ} (hnn : ∀ x ∈ l, 0 ≤ x) :
    l.sum = 0 ↔ ∀ x ∈ l, x = 0 := by
  constructor
  · intro h x hx
    induction l with
    | nil => simp at hx
    | cons a t ih =>
      have ha : 0 ≤ a := hnn a (List.mem_cons_self a t)
      have ht : 0 ≤ t.sum :=
        List.sum_nonneg (fun y hy => hnn y (List.mem_cons_of_mem a hy))
      rw [List.sum_cons] at h
      have ha0 : a = 0 := le_antisymm (by linarith) ha
      have ht0 : t.sum = 0 := by linarith
      rcases List.mem_cons.mp hx with h1 | h1
      · rw [h1, ha0]
      · exact ih (fun y hy => hnn y (List.mem_cons_of_mem a hy)) ht0 h1
  · exact List.sum_eq_zero

/-- The mean of a nonempty list of squared differences vanishes exactly when
every pair agrees. -/
lemma meanQ_sq_diff_zero_iff {l : List (ℚ × ℚ)} (hl : l ≠ []) :
    meanQ (l.map (fun p => (p.1 - p.2) ^ 2)) = 0 ↔ ∀ p ∈ l, p.1 = p.2 := by
  have hlen : ((l.map (fun p => (p.1 - p.2) ^ 2)).length : ℚ) ≠ 0 := by
    simpa using hl
  have hnn : ∀ x ∈ l.map (fun p => (p.1 - p.2) ^ 2), (0:ℚ) ≤ x := by
    intro x hx
    obtain ⟨p, _, rfl⟩ := List.mem_map.mp hx
    positivity
  unfold meanQ
  rw [div_eq_zero_iff]
  constructor
  · intro h p hp
    rcases h with h | h
    · have := (sum_nonneg_eq_zero_iff hnn).mp h _
        (List.mem_map.mpr ⟨p, hp, rfl⟩)
      have := sq_eq_zero_iff.mp this
      linarith [sub_eq_zero.mp this]
    · exact absurd h hlen
  · intro h
    left
    apply List.sum_eq_zero
    intro x hx
    obtain ⟨p, hp, rfl⟩ := List.mem_map.mp hx
    rw [h p hp]
    ring

/-- Every pair in `l.zip l` is diagonal. -/
lemma zip_self_diag : ∀ (l : List ℚ) (p : ℚ × ℚ), p ∈ l.zip l → p.1 = p.2 := by
  intro l
  induction l with
  | nil => intro p hp; simp at hp
  | cons a t ih =>
    intro p hp
    rw [List.zip_cons_cons] at hp
    rcases List.mem_cons.mp hp with h | h
    · rw [h]
    · exact ih p h

/-! ### C3 — signal_to_noise_ratio -/

/-- Claim C3 (amended): on a nonempty truncation, `signal_to_noise_ratio`
returns `+inf` exactly when the truncated sample-wise difference is all
zeros, and otherwise returns
`10 * log10(mean(synthetic^2) / mean((original - synthetic)^2))` over the
truncated signals. -/
theorem snr_posInf_iff (log10 : ℚ → ℚ) (o s : List ℚ)
    (h : 0 < min o.length s.length) :
    (signal_to_noise_ratio log10 o s = .posInf ↔
      ∀ p ∈ (o.take (min o.length s.length)).zip
              (s.take (min o.length s.length)), p.1 = p.2)
  ∧ (signal_to_noise_ratio log10 o s ≠ .posInf →
      signal_to_noise_ratio log10 o s = .fin (10 * log10
        (meanQ ((s.take (min o.length s.length)).map (fun x => x ^ 2)) /
         meanQ (((o.take (min o.length s.length)).zip
                 (s.take (min o.length s.length))).map
                 (fun p => (p.1 - p.2) ^ 2))))) := by
  have hne : min o.length s.length ≠ 0 := Nat.pos_iff_ne_zero.mp h
  have hzne : (o.take (min o.length s.length)).zip
      (s.take (min o.length s.length)) ≠ [] := by
    intro hcon
    have := congrArg List.length hcon
    rw [List.length_zip, List.length_take, List.length_take] at this
    simp only [List.length_nil] at this
    omega
  have hiff := meanQ_sq_diff_zero_iff hzne
  have hstep : signal_to_noise_ratio log10 o s =
      (if meanQ (((o.take (min o.length s.length)).zip
            (s.take (min o.length s.length))).map
            (fun p => (p.1 - p.2) ^ 2)) = 0 then FloatVal.posInf
       else .fin (10 * log10
        (meanQ ((s.take (min o.length s.length)).map (fun x => x ^ 2)) /
         meanQ (((o.take (min o.length s.length)).zip
                 (s.take (min o.length s.length))).map
                 (fun p => (p.1 - p.2) ^ 2))))) := by
    simp only [signal_to_noise_ratio]
    rw [if_neg hne]
  by_cases hz : meanQ (((o.take (min o.length s.length)).zip
      (s.take (min o.length s.length))).map (fun p => (p.1 - p.2) ^ 2)) = 0
  · rw [hstep, if_pos hz]
    exact ⟨iff_of_true rfl (hiff.mp hz), fun hc => absurd rfl hc⟩
  · rw [hstep, if_neg hz]
    refine ⟨iff_of_false (by simp) (fun hall => hz (hiff.mpr hall)), ?_⟩
    intro _
    rfl

/-- Witness for `snr_posInf_iff` at a concrete identical pair. -/
theorem snr_posInf_iff_witness :
    0 < min [(1:ℚ)].length [(1:ℚ)].length
  ∧ signal_to_noise_ratio (fun _ => (0:ℚ)) [1] [1] = FloatVal.posInf := by
  refine ⟨by decide, ?_⟩
  exact (snr_posInf_iff (fun _ => (0:ℚ)) [1] [1] (by decide)).1.mpr
    (by intro p hp; exact zip_self_diag [1] p (by simpa using hp))

/-- Counterexample to C3 as stated: on two empty decoded waveforms the
truncated difference is (vacuously) all zeros, yet the source returns NaN
(`np.mean` of the empty slice is NaN, so the `noise_power == 0` guard does
not fire), not `+inf`. -/
theorem snr_empty_counterexample :
    (∀ p ∈ (([] : List ℚ).take (min (0:ℕ) 0)).zip
            (([] : List ℚ).take (min (0:ℕ) 0)), (p : ℚ × ℚ).1 = p.2)
  ∧ signal_to_noise_ratio (fun _ => (0:ℚ)) [] [] = FloatVal.nan
  ∧ signal_to_noise_ratio (fun _ => (0:ℚ)) [] [] ≠ FloatVal.posInf := by
  refine ⟨by simp, rfl, by decide⟩

/-! ### C4 — duration_analysis -/

/-- Claim C4: `duration_analysis` reports each duration as sample count
over sample rate, the absolute difference of the durations, and the ratio
synthetic/original, with the ratio falling back to `0` when the original
duration is zero. -/
theorem duration_analysis_matches_spec (sr : ℕ) (o s : List ℚ)
    (hsr : 0 < sr) :
    (duration_analysis sr o s).original_duration = (o.length : ℚ) / (sr : ℚ)
  ∧ (duration_analysis sr o s).synthetic_duration = (s.length : ℚ) / (sr : ℚ)
  ∧ (duration_analysis sr o s).duration_difference =
      |(o.length : ℚ) / (sr : ℚ) - (s.length : ℚ) / (sr : ℚ)|
  ∧ ((o.length : ℚ) / (sr : ℚ) = 0 →
      (duration_analysis sr o s).duration_ratio = 0)
  ∧ ((o.length : ℚ) / (sr : ℚ) ≠ 0 →
      (duration_analysis sr o s).duration_ratio =
        ((s.length : ℚ) / (sr : ℚ)) / ((o.length : ℚ) / (sr : ℚ))) := by
  refine ⟨rfl, rfl, rfl, ?_, ?_⟩
  · intro h
    simp [duration_analysis, h]
  · intro h
    have hnn : (0:ℚ) ≤ (o.length : ℚ) / (sr : ℚ) := by positivity
    have hpos : (0:ℚ) < (o.length : ℚ) / (sr : ℚ) :=
      lt_of_le_of_ne hnn (Ne.symm h)
    simp [duration_analysis, hpos]

/-- Witness for `duration_analysis_matches_spec`: an empty original gives
ratio `0` without raising. -/
theorem duration_analysis_matches_spec_witness :
    (0:ℕ) < 16000
  ∧ (duration_analysis 16000 [] [(1:ℚ)]).duration_ratio = 0 := by
  refine ⟨by norm_num, ?_⟩
  exact (duration_analysis_matches_spec 16000 [] [(1:ℚ)]
    (by norm_num)).2.2.2.1 (by norm_num)

/-! ### C5 — pitch_metrics -/

/-- Claim C5: when every extracted F0 frame is zero or NaN, `pitch_metrics`
returns the all-zero statistics record (and, being total, does not raise);
otherwise — freshly extracted F0 values being nonnegative frequencies — it
returns the statistics of the valid (positive, non-NaN) frames only. -/
theorem pitch_metrics_all_zero_or_valid (sqrt : ℚ → ℚ)
    (yin : List ℚ → List (Option ℚ)) (audio : List ℚ) :
    ((∀ x ∈ yin audio, x = some 0 ∨ x = none) →
      pitch_metrics sqrt yin audio = ⟨0, 0, 0, 0, 0⟩)
  ∧ ((∀ x ∈ yin audio, ∀ q : ℚ, x = some q → 0 ≤ q) →
      (∃ x ∈ yin audio, x ≠ some 0 ∧ x ≠ none) →
      validF0 (yin audio) ≠ [] ∧
      pitch_metrics sqrt yin audio = pitchStatsOf sqrt (validF0 (yin audio))) := by
  constructor
  · intro h
    have hnil : validF0 (yin audio) = [] := by
      unfold validF0
      rw [List.filter_eq_nil_iff]
      intro a ha
      obtain ⟨x, hx, hxa⟩ := List.mem_filterMap.mp ha
      rcases h x hx with h0 | h0
      · rw [h0] at hxa
        simp only [id] at hxa
        cases hxa
        simp
      · rw [h0] at hxa
        cases hxa
    simp [pitch_metrics, hnil]
  · intro hnn hex
    obtain ⟨x, hx, hx0, hxn⟩ := hex
    obtain ⟨q, hq⟩ := Option.ne_none_iff_exists'.mp hxn
    have hq0 : q ≠ 0 := by
      intro hcon
      rw [hcon] at hq
      exact hx0 hq
    have hqpos : 0 < q := lt_of_le_of_ne (hnn x hx q hq) (Ne.symm hq0)
    have hmem : q ∈ validF0 (yin audio) := by
      unfold validF0
      rw [List.mem_filter]
      refine ⟨List.mem_filterMap.mpr ⟨some q, by rwa [hq] at hx, rfl⟩, ?_⟩
      simpa using hqpos
    have hnonnil := List.ne_nil_of_mem hmem
    exact ⟨hnonnil, by simp [pitch_metrics, hnonnil]⟩

/-- Witness for `pitch_metrics_all_zero_or_valid`: an unvoiced contour
yields the all-zero record; a contour with a voiced frame yields the
statistics of its valid frames. -/
theorem pitch_metrics_all_zero_or_valid_witness :
    pitch_metrics id (fun _ => [some 0, none]) [] = (⟨0, 0, 0, 0, 0⟩ : PitchStats)
  ∧ pitch_metrics id (fun _ => [some 2, some 0]) [] =
      pitchStatsOf id (validF0 [some 2, some 0]) := by
  constructor
  · exact (pitch_metrics_all_zero_or_valid id (fun _ => [some 0, none]) []).1
      (by intro x hx; simpa using hx)
  · exact ((pitch_metrics_all_zero_or_valid id (fun _ => [some 2, some 0]) []).2
      (by
        intro x hx q hq
        have hx2 : x = some 2 ∨ x = some 0 := by simpa using hx
        rcases hx2 with h | h <;> subst h <;> injection hq with h2 <;>
          subst h2 <;> norm_num)
      ⟨some 2, by simp, by simp, by simp⟩).2

/-! ### C8 — lazily cached encoder -/

/-- Claim C8: the encoder handle is an instance field: a fresh instance
starts with it unset, the first `_get_encoder` call constructs and stores
it, later calls return the stored handle and leave the instance unchanged,
and the sample-rate configuration is never touched. -/
theorem encoder_instance_cache {E : Type} (mk : E) (sr : ℕ)
    (st : TTSState E) :
    (TTSState.init E sr).encoder = none
  ∧ (st.encoder = none → get_encoder mk st = (mk, ⟨st.sr, some mk⟩))
  ∧ (∀ e, st.encoder = some e → get_encoder mk st = (e, st))
  ∧ (get_encoder mk st).2.encoder = some (get_encoder mk st).1
  ∧ (get_encoder mk st).2.sr = st.sr
  ∧ get_encoder mk (get_encoder mk st).2 =
      ((get_encoder mk st).1, (get_encoder mk st).2) := by
  obtain ⟨s, enc⟩ := st
  cases enc <;> simp [TTSState.init, get_encoder]

/-- Witness for `encoder_instance_cache`: first call on a fresh instance
constructs and caches the handle. -/
theorem encoder_instance_cache_witness :
    get_encoder 7 (TTSState.init ℕ 16000) = (7, ⟨16000, some 7⟩) :=
  (encoder_instance_cache 7 16000 (TTSState.init ℕ 16000)).2.1 rfl

/-! ### C7 — speaker_similarity -/

/-- Claim C7: `speaker_similarity` returns one minus the cosine distance of
the two embeddings, the embeddings are computed from the resemblyzer
preprocessing of the file paths, and the result depends on the recordings
only through that preprocessing (the evaluator's own decoded buffer is
never consulted). -/
theorem speaker_similarity_via_preprocess {E W : Type} (lib : VoiceLib E W)
    (sqrt : ℚ → ℚ) (st : TTSState E) (p1 p2 : String) :
    (speaker_similarity lib sqrt st p1 p2).1 =
      1 - cosineDist sqrt
        (lib.embed (get_encoder lib.mkEncoder st).1 (lib.preprocess p1))
        (lib.embed (get_encoder lib.mkEncoder st).1 (lib.preprocess p2))
  ∧ (∀ q1 q2 : String, lib.preprocess q1 = lib.preprocess p1 →
      lib.preprocess q2 = lib.preprocess p2 →
      speaker_similarity lib sqrt st q1 q2 =
        speaker_similarity lib sqrt st p1 p2) := by
  refine ⟨rfl, ?_⟩
  intro q1 q2 h1 h2
  simp only [speaker_similarity, h1, h2]

/-- Witness for `speaker_similarity_via_preprocess` at a concrete library
instantiation. -/
theorem speaker_similarity_via_preprocess_witness :
    (speaker_similarity
        (⟨0, fun _ => 0, fun _ _ => [1]⟩ : VoiceLib ℕ ℕ) id
        (TTSState.init ℕ 16000) "ref.wav" "syn.wav").1 =
      1 - cosineDist id [1] [1] := by
  have h := (speaker_similarity_via_preprocess
    (⟨0, fun _ => 0, fun _ _ => [1]⟩ : VoiceLib ℕ ℕ) id
    (TTSState.init ℕ 16000) "ref.wav" "syn.wav").1
  simpa using h

/-! ### Helper lemmas for identical inputs -/

/-- Subtracting a matrix from itself gives the all-zero matrix of the same
shape. -/
lemma matSub_self (a : List (List ℚ)) :
    matSub a a = a.map (fun r => r.map (fun _ => (0:ℚ))) := by
  unfold matSub
  rw [List.zipWith_same]
  apply List.map_congr_left
  intro r _
  rw [List.zipWith_same]
  apply List.map_congr_left
  intro x _
  exact sub_self x

/-- Mapping everything to zero sums to zero. -/
lemma sum_map_zero {α : Type} (l : List α) :
    (l.map (fun _ => (0:ℚ))).sum = 0 := by
  induction l with
  | nil => rfl
  | cons a t ih => simp [ih]

/-- The squared Frobenius norm of an all-zero matrix is zero. -/
lemma frobNormSq_zero_map (a : List (List ℚ)) :
    frobNormSq (a.map (fun r => r.map (fun _ => (0:ℚ)))) = 0 := by
  unfold frobNormSq
  rw [List.map_map]
  have h : ∀ r ∈ a,
      ((fun r => ((r.map (fun x => x ^ 2)).sum)) ∘
        (fun r => r.map (fun _ => (0:ℚ)))) r = (fun _ => (0:ℚ)) r := by
    intro r _
    simp only [Function.comp_apply, List.map_map]
    have : ((fun x : ℚ => x ^ 2) ∘ fun _ : ℚ => (0:ℚ)) = fun _ : ℚ => (0:ℚ) := by
      funext y
      simp
    rw [this, sum_map_zero]
  rw [List.map_congr_left h, sum_map_zero]

/-- Column sums over an all-zero matrix are zero in every column. -/
lemma sumAxis0_of_zero_rows (M : List (List ℚ)) (n : ℕ)
    (hM : ∀ r ∈ M, ∀ x ∈ r, x = (0:ℚ)) :
    sumAxis0 M n = List.replicate n 0 := by
  unfold sumAxis0
  refine List.eq_replicate_iff.mpr ⟨by simp, ?_⟩
  intro b hb
  obtain ⟨j, _, rfl⟩ := List.mem_map.mp hb
  apply List.sum_eq_zero
  intro x hx
  obtain ⟨r, hr, rfl⟩ := List.mem_map.mp hx
  cases hg : r.get? j with
  | none => simp [hg]
  | some v =>
    simp only [hg, Option.getD_some]
    exact hM r hr v (List.get?_mem hg)

/-! ### C2 — identical reference and synthetic waveforms -/

/-- Claim C2: when both inputs decode to the same non-silent waveform, the
exactly-decidable metrics take their ideal values: MCD 0, spectral
convergence 0, SNR `+inf`, duration ratio 1 and duration difference 0.
Non-silence enters as: the waveform is nonempty, its MFCC matrix has at
least one frame, and its magnitude spectrogram has nonzero Frobenius norm
(`sqrt` is the real square root, so `sqrt 0 = 0`). -/
theorem identical_inputs_ideal_values (sr : ℕ) (w : List ℚ)
    (ln sqrt log10 : ℚ → ℚ) (mfcc stft : List ℚ → List (List ℚ))
    (hw : w ≠ []) (hsr : 0 < sr) (hsqrt0 : sqrt 0 = 0)
    (hframes : 0 < numFrames (mfcc w))
    (hstft : sqrt (frobNormSq (stft w)) ≠ 0) :
    mel_cepstral_distortion ln sqrt mfcc w w = .fin 0
  ∧ spectral_convergence sqrt stft w w = .fin 0
  ∧ signal_to_noise_ratio log10 w w = .posInf
  ∧ (duration_analysis sr w w).duration_ratio = 1
  ∧ (duration_analysis sr w w).duration_difference = 0 := by
  have hww : w.take (min w.length w.length) = w := by
    rw [Nat.min_self, List.take_length]
  have hzero : ∀ r ∈ matSq (matSub
      ((truncFrames (numFrames (mfcc w)) (mfcc w)).drop 1)
      ((truncFrames (numFrames (mfcc w)) (mfcc w)).drop 1)),
      ∀ x ∈ r, x = (0:ℚ) := by
    rw [matSub_self]
    intro r hr x hx
    simp only [matSq, List.map_map, List.mem_map] at hr
    obtain ⟨r0, _, rfl⟩ := hr
    simp only [Function.comp_apply, List.map_map, List.mem_map] at hx
    obtain ⟨y, _, rfl⟩ := hx
    simp
  refine ⟨?_, ?_, ?_, ?_, ?_⟩
  · simp only [mel_cepstral_distortion, Nat.min_self, List.take_length]
    rw [sumAxis0_of_zero_rows _ _ hzero, List.map_replicate]
    have hz : (10 / ln 10) * sqrt (2 * 0) = 0 := by
      rw [mul_zero, hsqrt0, mul_zero]
    rw [hz]
    have hnn : List.replicate (numFrames (mfcc w)) (0:ℚ) ≠ [] := by
      intro hcon
      have hlen := congrArg List.length hcon
      simp only [List.length_replicate, List.length_nil] at hlen
      omega
    unfold npMean
    rw [if_neg hnn]
    unfold meanQ
    rw [List.sum_replicate]
    simp
  · simp only [spectral_convergence, Nat.min_self, List.take_length]
    rw [matSub_self, frobNormSq_zero_map, hsqrt0]
    unfold fdiv
    rw [if_neg hstft, zero_div]
  · simp only [signal_to_noise_ratio, Nat.min_self, List.take_length]
    have hlen : w.length ≠ 0 := by simpa using hw
    rw [if_neg hlen]
    have hz : meanQ ((w.zip w).map (fun p => (p.1 - p.2) ^ 2)) = 0 := by
      unfold meanQ
      rw [List.sum_eq_zero, zero_div]
      intro x hx
      obtain ⟨p, hp, rfl⟩ := List.mem_map.mp hx
      rw [zip_self_diag w p hp]
      ring
    rw [if_pos hz]
  · have hpos : (0:ℚ) < (w.length : ℚ) / (sr : ℚ) := by
      have h1 : (0:ℚ) < (w.length : ℚ) := by
        have := List.length_pos.mpr hw
        exact_mod_cast this
      have h2 : (0:ℚ) < (sr : ℚ) := by exact_mod_cast hsr
      positivity
    simp only [duration_analysis]
    rw [if_pos hpos]
    exact div_self (ne_of_gt hpos)
  · simp [duration_analysis]

/-- Witness for `identical_inputs_ideal_values` at a concrete waveform and
concrete DSP primitives. -/
theorem identical_inputs_ideal_values_witness :
    mel_cepstral_distortion id id (fun _ => [[(1:ℚ)], [2]]) [1] [1] =
      FloatVal.fin 0
  ∧ spectral_convergence id (fun _ => [[(1:ℚ)]]) [1] [1] = FloatVal.fin 0
  ∧ signal_to_noise_ratio id [(1:ℚ)] [1] = FloatVal.posInf
  ∧ (duration_analysis 16000 [(1:ℚ)] [1]).duration_ratio = 1
  ∧ (duration_analysis 16000 [(1:ℚ)] [1]).duration_difference = 0 :=
  identical_inputs_ideal_values 16000 [1] id id id
    (fun _ => [[(1:ℚ)], [2]]) (fun _ => [[(1:ℚ)]])
    (by simp) (by norm_num) rfl (by simp [numFrames])
    (by norm_num [frobNormSq])

/-! ### C9 — unguarded division in spectral_convergence -/

/-- Claim C9: `spectral_convergence` divides by the Frobenius norm of the
reference spectrogram with no zero guard: whenever that norm is zero (as
for an all-zero reference decode) the result is not a finite float.  By
contrast, the division in `signal_to_noise_ratio` is guarded by the
`noise_power == 0` check and the one in `duration_analysis` by the
`dur_orig > 0` check. -/
theorem spectral_convergence_unguarded (sqrt : ℚ → ℚ)
    (stft : List ℚ → List (List ℚ)) (o s : List ℚ)
    (hsqrt0 : sqrt 0 = 0)
    (hz : frobNormSq (stft (o.take (min o.length s.length))) = 0) :
    (spectral_convergence sqrt stft o s).isFinite = false
  ∧ (∀ (log10 : ℚ → ℚ) (o2 s2 : List ℚ), min o2.length s2.length ≠ 0 →
      meanQ (((o2.take (min o2.length s2.length)).zip
              (s2.take (min o2.length s2.length))).map
              (fun p => (p.1 - p.2) ^ 2)) = 0 →
      signal_to_noise_ratio log10 o2 s2 = .posInf)
  ∧ (∀ (sr : ℕ) (o2 s2 : List ℚ), (o2.length : ℚ) / (sr : ℚ) = 0 →
      (duration_analysis sr o2 s2).duration_ratio = 0) := by
  refine ⟨?_, ?_, ?_⟩
  · simp only [spectral_convergence, hz, hsqrt0]
    unfold fdiv
    rw [if_pos rfl]
    by_cases h1 : sqrt (frobNormSq (matSub
        (stft (o.take (min o.length s.length)))
        (stft (s.take (min o.length s.length))))) = 0
    · rw [if_pos h1]
      rfl
    · rw [if_neg h1]
      by_cases h2 : 0 < sqrt (frobNormSq (matSub
          (stft (o.take (min o.length s.length)))
          (stft (s.take (min o.length s.length)))))
      · rw [if_pos h2]
        rfl
      · rw [if_neg h2]
        rfl
  · intro log10 o2 s2 hne hmz
    simp only [signal_to_noise_ratio]
    rw [if_neg hne, if_pos hmz]
  · intro sr o2 s2 h
    simp [duration_analysis, h]

/-- Witness for `spectral_convergence_unguarded`: an all-zero reference
with the zero spectrogram it induces yields a non-finite result, while the
guarded divisions return their fallbacks. -/
theorem spectral_convergence_unguarded_witness :
    (spectral_convergence id (fun _ => [[(0:ℚ)]]) [0] [0]).isFinite = false
  ∧ (duration_analysis 16000 [] [(1:ℚ)]).duration_ratio = 0 := by
  have h := spectral_convergence_unguarded id (fun _ => [[(0:ℚ)]]) [0] [0]
    rfl (by norm_num [frobNormSq])
  exact ⟨h.1, h.2.2 16000 [] [(1:ℚ)] (by norm_num)⟩

/-! ### C6 — the MCD formula -/

/-- `zipWith` as a map over the zip. -/
lemma zipWith_eq_map_zip {α β γ : Type} (f : α → β → γ) :
    ∀ (a : List α) (b : List β),
      List.zipWith f a b = (a.zip b).map (fun p => f p.1 p.2) := by
  intro a
  induction a with
  | nil => intro b; cases b <;> rfl
  | cons x t ih =>
    intro b
    cases b with
    | nil => rfl
    | cons y u => simp [ih]

/-- Entry `j` of a pointwise difference of two sufficiently long rows. -/
lemma get_zipWith_sub (x : List ℚ) :
    ∀ (y : List ℚ) (j : ℕ), j < x.length → j < y.length →
      (List.zipWith (fun a b => a - b) x y).get? j =
        some (((x.get? j).getD 0) - ((y.get? j).getD 0)) := by
  induction x with
  | nil => intro y j h; simp at h
  | cons a t ih =>
    intro y j hx hy
    cases y with
    | nil => simp at hy
    | cons b u =>
      cases j with
      | zero => simp
      | succ k =>
        simpa using ih u k (by simpa using hx) (by simpa using hy)

/-- The column sums of the squared entrywise difference agree with the
specification's per-frame sum of squared coefficient differences, provided
every row is at least `n` frames long. -/
lemma sumAxis0_matSq_matSub (A B : List (List ℚ)) (n : ℕ)
    (hA : ∀ r ∈ A, n ≤ r.length) (hB : ∀ r ∈ B, n ≤ r.length) :
    sumAxis0 (matSq (matSub A B)) n =
      (List.range n).map (fun j =>
        ((A.zip B).map
          (fun rr => (((rr.1.get? j).getD 0) - ((rr.2.get? j).getD 0)) ^ 2)).sum) := by
  unfold sumAxis0
  apply List.map_congr_left
  intro j hj
  have hjn : j < n := List.mem_range.mp hj
  congr 1
  unfold matSub
  rw [zipWith_eq_map_zip]
  unfold matSq
  rw [List.map_map, List.map_map]
  apply List.map_congr_left
  intro p hp
  obtain ⟨p1, p2⟩ := p
  have hmem := List.of_mem_zip hp
  have h1 : j < p1.length := lt_of_lt_of_le hjn (hA p1 hmem.1)
  have h2 : j < p2.length := lt_of_lt_of_le hjn (hB p2 hmem.2)
  simp only [Function.comp_apply]
  rw [List.get?_map, get_zipWith_sub p1 p2 j h1 h2]
  rfl

/-- Claim C6: `mel_cepstral_distortion` computes exactly the
specification's MCD formula on the two MFCC matrices of the
sample-truncated waveforms: truncate to the common frame count, drop the
zeroth coefficient row, per-frame distance
`(10/ln 10) * sqrt(2 * sum of squared differences)`, mean over frames.
The MFCC matrices are rectangular (as numpy arrays are). -/
theorem mcd_matches_spec (ln sqrt : ℚ → ℚ) (mfcc : List ℚ → List (List ℚ))
    (o s : List ℚ)
    (hA : ∀ r ∈ mfcc (o.take (min o.length s.length)),
      r.length = numFrames (mfcc (o.take (min o.length s.length))))
    (hB : ∀ r ∈ mfcc (s.take (min o.length s.length)),
      r.length = numFrames (mfcc (s.take (min o.length s.length)))) :
    mel_cepstral_distortion ln sqrt mfcc o s =
      mcdSpec ln sqrt (mfcc (o.take (min o.length s.length)))
        (mfcc (s.take (min o.length s.length))) := by
  simp only [mel_cepstral_distortion, mcdSpec]
  set A := mfcc (o.take (min o.length s.length)) with hAdef
  set B := mfcc (s.take (min o.length s.length)) with hBdef
  set n := min (numFrames A) (numFrames B) with hndef
  have hA' : ∀ r ∈ (truncFrames n A).drop 1, n ≤ r.length := by
    intro r hr
    have hr2 := List.mem_of_mem_drop hr
    obtain ⟨r0, hr0, rfl⟩ := List.mem_map.mp hr2
    rw [List.length_take, hA r0 hr0]
    have : n ≤ numFrames A := by
      rw [hndef]
      exact Nat.min_le_left _ _
    omega
  have hB' : ∀ r ∈ (truncFrames n B).drop 1, n ≤ r.length := by
    intro r hr
    have hr2 := List.mem_of_mem_drop hr
    obtain ⟨r0, hr0, rfl⟩ := List.mem_map.mp hr2
    rw [List.length_take, hB r0 hr0]
    have : n ≤ numFrames B := by
      rw [hndef]
      exact Nat.min_le_right _ _
    omega
  rw [sumAxis0_matSq_matSub _ _ n hA' hB', List.map_map]
  rfl

/-- Witness for `mcd_matches_spec` at concrete rectangular matrices. -/
theorem mcd_matches_spec_witness :
    mel_cepstral_distortion id id (fun _ => [[(1:ℚ), 2], [3, 4]]) [1] [2] =
      mcdSpec id id [[(1:ℚ), 2], [3, 4]] [[(1:ℚ), 2], [3, 4]] := by
  have h := mcd_matches_spec id id (fun _ => [[(1:ℚ), 2], [3, 4]]) [1] [2]
    (by
      intro r hr
      have h2 : r = [(1:ℚ), 2] ∨ r = [3, 4] := by simpa using hr
      rcases h2 with h | h <;> subst h <;> simp [numFrames])
    (by
      intro r hr
      have h2 : r = [(1:ℚ), 2] ∨ r = [3, 4] := by simpa using hr
      rcases h2 with h | h <;> subst h <;> simp [numFrames])
  simpa using h

/-! ### C10 — symmetry of spectral_similarity -/

/-- Mean squared error over zipped flattened arrays is symmetric. -/
lemma mseZip_comm (xs ys : List ℚ) : mseZip xs ys = mseZip ys xs := by
  unfold mseZip
  rw [← List.zip_swap xs ys, List.map_map]
  congr 1
  apply List.map_congr_left
  intro p _
  simp only [Function.comp_apply, Prod.fst_swap, Prod.snd_swap]
  ring

/-- The Pearson coefficient is invariant under swapping each pair. -/
lemma pearsonZip_swap (sqrt : ℚ → ℚ) (ps : List (ℚ × ℚ)) :
    pearsonZip sqrt (ps.map Prod.swap) = pearsonZip sqrt ps := by
  unfold pearsonZip
  simp only [List.map_map]
  have hfst : (Prod.fst ∘ Prod.swap : ℚ × ℚ → ℚ) = Prod.snd := rfl
  have hsnd : (Prod.snd ∘ Prod.swap : ℚ × ℚ → ℚ) = Prod.fst := rfl
  rw [hfst, hsnd]
  have hcov : ((fun p : ℚ × ℚ =>
        (p.1 - meanQ (ps.map Prod.snd)) * (p.2 - meanQ (ps.map Prod.fst))) ∘
        Prod.swap) =
      fun p : ℚ × ℚ =>
        (p.1 - meanQ (ps.map Prod.fst)) * (p.2 - meanQ (ps.map Prod.snd)) := by
    funext p
    simp only [Function.comp_apply, Prod.fst_swap, Prod.snd_swap]
    ring
  rw [hcov, mul_comm (sqrt _) (sqrt _)]

/-- Claim C10: `spectral_similarity` is symmetric in its two inputs: both
the MSE and the Pearson correlation of the peak-referenced log-mel
spectrograms are unchanged when reference and synthetic are swapped. -/
theorem spectral_similarity_symmetric (sqrt : ℚ → ℚ)
    (mel : List ℚ → List (List ℚ)) (p2db : List (List ℚ) → List (List ℚ))
    (o s : List ℚ) :
    spectral_similarity sqrt mel p2db o s =
      spectral_similarity sqrt mel p2db s o := by
  simp only [spectral_similarity]
  rw [Nat.min_comm s.length o.length,
    Nat.min_comm (numFrames (p2db (mel (List.take (min o.length s.length) s))))
      (numFrames (p2db (mel (List.take (min o.length s.length) o))))]
  set fo := (truncFrames
    (min (numFrames (p2db (mel (List.take (min o.length s.length) o))))
         (numFrames (p2db (mel (List.take (min o.length s.length) s)))))
    (p2db (mel (List.take (min o.length s.length) o)))).flatten with hfo
  set fs := (truncFrames
    (min (numFrames (p2db (mel (List.take (min o.length s.length) o))))
         (numFrames (p2db (mel (List.take (min o.length s.length) s)))))
    (p2db (mel (List.take (min o.length s.length) s)))).flatten with hfs
  have h1 : mseZip fo fs = mseZip fs fo := mseZip_comm fo fs
  have h2 : pearsonZip sqrt (fo.zip fs) = pearsonZip sqrt (fs.zip fo) := by
    rw [← List.zip_swap fo fs]
    exact (pearsonZip_swap sqrt (fo.zip fs)).symm
  rw [h1, h2]

/-! ### C1 — shape of the comprehensive_evaluation record -/

set_option maxHeartbeats 3200000 in
/-- Claim C1 (amended): whatever each wrapped metric call does (returns or
raises), `comprehensive_evaluation` returns a record (it is total, no
exception escapes) in which the six scalar keys `speaker_similarity`,
`mcd`, `spectral_convergence`, `snr`, `mel_mse`, `mel_correlation` are
always present — holding the metric value on success and null on failure —
while the duration, pitch and energy keys are present exactly when their
metric block succeeded, and are omitted entirely (not recorded as null)
when it failed. -/
theorem comprehensive_record_shape (po ps : String) (m : MetricOutcomes) :
    getKey "speaker_similarity" (comprehensive_evaluation po ps m) =
      some (optNum m.sim)
  ∧ getKey "mcd" (comprehensive_evaluation po ps m) = some (optNum m.mcd)
  ∧ getKey "spectral_convergence" (comprehensive_evaluation po ps m) =
      some (optNum m.specConv)
  ∧ getKey "snr" (comprehensive_evaluation po ps m) = some (optNum m.snr)
  ∧ getKey "mel_mse" (comprehensive_evaluation po ps m) =
      some (melMseVal m.specSim)
  ∧ getKey "mel_correlation" (comprehensive_evaluation po ps m) =
      some (melCorrVal m.specSim)
  ∧ (m.duration = none →
      getKey "original_duration" (comprehensive_evaluation po ps m) = none
    ∧ getKey "synthetic_duration" (comprehensive_evaluation po ps m) = none
    ∧ getKey "duration_difference" (comprehensive_evaluation po ps m) = none
    ∧ getKey "duration_ratio" (comprehensive_evaluation po ps m) = none)
  ∧ (∀ d, m.duration = some d →
      getKey "duration_ratio" (comprehensive_evaluation po ps m) =
        some (.num (.fin d.duration_ratio)))
  ∧ ((m.pitchOrig = none ∨ m.pitchSynth = none) →
      getKey "original_pitch" (comprehensive_evaluation po ps m) = none
    ∧ getKey "synthetic_pitch" (comprehensive_evaluation po ps m) = none
    ∧ getKey "pitch_difference" (comprehensive_evaluation po ps m) = none)
  ∧ (∀ a b, m.pitchOrig = some a → m.pitchSynth = some b →
      getKey "original_pitch" (comprehensive_evaluation po ps m) =
        some (.pitchD a)
    ∧ getKey "pitch_difference" (comprehensive_evaluation po ps m) =
        some (.num (.fin |a.mean_pitch - b.mean_pitch|)))
  ∧ ((m.energyOrig = none ∨ m.energySynth = none) →
      getKey "original_energy" (comprehensive_evaluation po ps m) = none
    ∧ getKey "synthetic_energy" (comprehensive_evaluation po ps m) = none)
  ∧ (∀ a b, m.energyOrig = some a → m.energySynth = some b →
      getKey "original_energy" (comprehensive_evaluation po ps m) =
        some (.energyD a)
    ∧ getKey "synthetic_energy" (comprehensive_evaluation po ps m) =
        some (.energyD b)) := by
  obtain ⟨so, sm, sc, sn, ss, du, pa, pb, ea, eb⟩ := m
  cases du <;> cases pa <;> cases pb <;> cases ea <;> cases eb <;>
    simp [comprehensive_evaluation, durationSeg, pitchSeg, energySeg, getKey]

/-- Counterexample to C1 as stated: when every metric fails, the returned
record omits the duration, pitch and energy keys entirely instead of
recording them as null. -/
theorem comprehensive_record_missing_keys :
    getKey "duration_ratio" (comprehensive_evaluation "ref.wav" "syn.wav"
      ⟨none, none, none, none, none, none, none, none, none, none⟩) = none
  ∧ getKey "original_pitch" (comprehensive_evaluation "ref.wav" "syn.wav"
      ⟨none, none, none, none, none, none, none, none, none, none⟩) = none
  ∧ getKey "original_energy" (comprehensive_evaluation "ref.wav" "syn.wav"
      ⟨none, none, none, none, none, none, none, none, none, none⟩) = none
  ∧ getKey "mcd" (comprehensive_evaluation "ref.wav" "syn.wav"
      ⟨none, none, none, none, none, none, none, none, none, none⟩) =
      some JVal.null := by
  refine ⟨rfl, rfl, rfl, rfl⟩

/-- Witness for `comprehensive_record_shape` at concrete outcomes: the
speaker-similarity failure is recorded as null while the failed duration
block leaves its key absent. -/
theorem comprehensive_record_shape_witness :
    getKey "speaker_similarity" (comprehensive_evaluation "a.wav" "b.wav"
      ⟨none, some (.fin 3), none, none, none, none, none, none, none, none⟩) =
      some JVal.null
  ∧ getKey "duration_ratio" (comprehensive_evaluation "a.wav" "b.wav"
      ⟨none, some (.fin 3), none, none, none, none, none, none, none, none⟩) =
      none := by
  have h := comprehensive_record_shape "a.wav" "b.wav"
    ⟨none, some (.fin 3), none, none, none, none, none, none, none, none⟩
  exact ⟨h.1, (h.2.2.2.2.2.2.1 rfl).2.2.2⟩

end TTS
